import Mathlib

/-!
Verification of the xdts2sts core: a shallow embedding of the keyframe
normalization pipeline (`src/parser.rs`) and the STS binary encoder
(`src/converter.rs`), together with theorems settling the specification
claims about them.

Machine integers of the source (`u16`, `u32`, `usize`) are modelled as `Nat`;
every place where the source applies a narrowing cast (`as u8`, `as u16`)
carries an explicit `% 2^w`.  File I/O is factored out: `save_sts` returns
the byte list the source writes (or the error it bails with), and the
Shift-JIS encoder from the external `encoding_rs` crate is a parameter
`enc : String → List Nat` giving the encoded bytes of a name.
-/

namespace XdtsToSts

/-- `Frame` of `src/types.rs`: one keyframe, `frame` a `u32` timeline index
and `cell` a `u16` drawing identifier. -/
structure Frame where
  frame : Nat
  cell : Nat
deriving DecidableEq, Repr

/-- `Layer` of `src/types.rs`. -/
structure Layer where
  name : String
  frames : List Frame
deriving DecidableEq, Repr

/-- `Timesheet` of `src/types.rs`; `frame_count` is a `u32`. -/
structure Timesheet where
  name : String
  frame_count : Nat
  layers : List Layer
deriving DecidableEq, Repr

/-- `DataItem` of `src/types.rs`. -/
structure DataItem where
  values : List String
deriving DecidableEq, Repr

/-- `FrameData` of `src/types.rs`. -/
structure FrameData where
  frame : Nat
  data : List DataItem
deriving DecidableEq, Repr

/-- `Track` of `src/types.rs`. -/
structure Track where
  track_no : Nat
  frames : List FrameData
deriving DecidableEq, Repr

/-- `TimeTableHeader` of `src/types.rs`. -/
structure TimeTableHeader where
  field_id : Nat
  names : List String
deriving DecidableEq, Repr

/-- `Field` of `src/types.rs`. -/
structure Field where
  field_id : Nat
  tracks : List Track
deriving DecidableEq, Repr

/-- `TimeTable` of `src/types.rs`. -/
structure TimeTable where
  name : String
  duration : Nat
  fields : List Field
  time_table_headers : List TimeTableHeader
deriving DecidableEq, Repr

/-- `Header` of `src/types.rs` (TDTS sheet header). -/
structure Header where
  cut : String
deriving DecidableEq, Repr

/-- `TimeSheet` of `src/types.rs` (one TDTS sheet). -/
structure TimeSheet where
  header : Header
  time_tables : List TimeTable
deriving DecidableEq, Repr

/-- `TDTSRoot` of `src/types.rs`. -/
structure TDTSRoot where
  time_sheets : List TimeSheet
deriving DecidableEq, Repr

/-- Model of Rust `str::parse::<u16>` on a character list: an optional
leading plus sign, then at least one ASCII digit, and the decimal value
must fit in 16 bits (Rust reports `PosOverflow` otherwise). -/
def parse_u16_chars (cs0 : List Char) : Option Nat :=
  let cs := if cs0.head? = some '+' then cs0.tail else cs0
  if cs.isEmpty then none
  else if cs.all Char.isDigit then
    let n := cs.foldl (fun a c => a * 10 + (c.toNat - 48)) 0
    if n ≤ 65535 then some n else none
  else none

/-- Model of Rust `str::parse::<u16>`. -/
def parse_u16 (s : String) : Option Nat :=
  parse_u16_chars s.toList

/-- The trailing ASCII-digit run of a string, as computed in
`parse_xdts_cell_value` (`src/parser.rs` lines 202-203): reverse,
take digits, reverse back. -/
def trailingDigits (value : String) : List Char :=
  (value.toList.reverse.takeWhile Char.isDigit).reverse

/-- `parse_xdts_cell_value` of `src/parser.rs` (lines 192-210). -/
def parse_xdts_cell_value (value : String) : Option Nat :=
  if value = "SYMBOL_NULL_CELL" then some 0
  else if value = "SYMBOL_TICK_1" ∨ value = "SYMBOL_TICK_2" ∨ value = "SYMBOL_HYPHEN" then
    none
  else
    let digits := trailingDigits value
    if ¬ digits.isEmpty then parse_u16_chars digits else none

/-- `parse_tdts_cell_value` of `src/parser.rs` (lines 212-218):
`value.parse().unwrap_or(0)`. -/
def parse_tdts_cell_value (value : String) : Nat :=
  if value = "SYMBOL_NULL_CELL" then 0
  else (parse_u16 value).getD 0

/-- The back-to-front duplicate-removal loop of `optimize_frames`
(`src/parser.rs` lines 231-239).  The loop examines each index `i` from
`len-1` down to `1` and removes `frames[i]` exactly when its cell equals
the cell of its predecessor *in the original list* (indices below the
cursor are never modified before being examined); `prev` is that original
predecessor. -/
def dedupAux (prev : Frame) : List Frame → List Frame
  | [] => []
  | f :: rest =>
    if f.cell = prev.cell then dedupAux f rest else f :: dedupAux f rest

/-- The duplicate-removal pass applied to the whole list: the first
element (index 0) is never examined by the loop and always survives. -/
def dedupFrames : List Frame → List Frame
  | [] => []
  | f :: rest => f :: dedupAux f rest

/-- `optimize_frames` of `src/parser.rs` (lines 220-240): empty lists are
returned unchanged; otherwise a synthetic `Frame {frame: 0, cell: 0}` is
prepended when the first frame index is nonzero, and then frames whose
cell repeats the previous frame's cell are removed. -/
def optimize_frames (frames : List Frame) : List Frame :=
  match frames with
  | [] => []
  | f :: rest =>
    if f.frame ≠ 0 then dedupFrames (⟨0, 0⟩ :: f :: rest) else dedupFrames (f :: rest)

/-- `parse_tdts_timetable` of `src/parser.rs` (lines 141-190).  The Rust
function returns `Result` but has no failure path, so it is modelled as a
total function. -/
def parse_tdts_timetable (name : String) (time_table : TimeTable) : Timesheet :=
  let frame_count := time_table.duration
  let field := time_table.fields.find? (fun f => f.field_id = 4)
  let names := (time_table.time_table_headers.find? (fun h => h.field_id = 4)).map
    (fun h => h.names)
  let layers :=
    match field, names with
    | some field, some names =>
      field.tracks.map (fun track =>
        let layer_name := (names.get? track.track_no).getD
          ("Layer " ++ toString track.track_no)
        let frames := track.frames.filterMap (fun frame_data =>
          (frame_data.data.head?.bind (fun d => d.values.head?)).map (fun value =>
            Frame.mk frame_data.frame (parse_tdts_cell_value value)))
        Layer.mk layer_name (optimize_frames frames))
    | _, _ => []
  Timesheet.mk name frame_count layers

/-- `load_tdts` of `src/parser.rs` (lines 41-65), after the file has been
read and the JSON deserialized: for each sheet and each of its time
tables, a `Timesheet` is produced exactly when the table's `fields` list
is non-empty. -/
def load_tdts_root (filename : String) (root : TDTSRoot) : List Timesheet :=
  root.time_sheets.flatMap (fun time_sheet =>
    time_sheet.time_tables.filterMap (fun time_table =>
      if time_table.fields.isEmpty then none
      else some (parse_tdts_timetable
        (filename ++ "->" ++ time_sheet.header.cut ++ "->" ++ time_table.name)
        time_table)))

/-- The inner filling loop of `expand_frames` (`src/converter.rs` line 136):
`for frame_no in start..end.min(frame_count) { cells[frame_no] = v }`.
`j` is the index of the current list cell; the `.min(frame_count)` bound is
realized by the list having exactly `frame_count` cells, so positions at or
past it do not exist. -/
def fillRange (start stop v : Nat) : Nat → List Nat → List Nat
  | _, [] => []
  | j, c :: rest =>
    (if start ≤ j ∧ j < stop then v else c) :: fillRange start stop v (j + 1) rest

/-- The main loop of `expand_frames` (`src/converter.rs` lines 124-139):
each keyframe's cell is written from its own frame index up to the next
keyframe's frame index, or up to `frame_count` for the last keyframe. -/
def expand_go (frame_count : Nat) : List Frame → List Nat → List Nat
  | [], cells => cells
  | [f], cells => fillRange f.frame frame_count f.cell 0 cells
  | f :: g :: rest, cells =>
    expand_go frame_count (g :: rest) (fillRange f.frame g.frame f.cell 0 cells)

/-- `expand_frames` of `src/converter.rs` (lines 117-142). -/
def expand_frames (frames : List Frame) (frame_count : Nat) : List Nat :=
  let cells := List.replicate frame_count 0
  if frames.isEmpty then cells else expand_go frame_count frames cells

/-- Little-endian byte pair of a `u16` value (`to_le_bytes`). -/
def le16 (n : Nat) : List Nat := [n % 256, n / 256 % 256]

/-- The fixed 17-byte ASCII identifier written at offset 1 of the STS file. -/
def stsIdent : List Nat := "ShiraheiTimeSheet".toList.map Char.toNat

/-- The 23-byte STS header (`src/converter.rs` lines 50-65): format tag
0x11, identifier, layer count as one byte, frame count as two
little-endian bytes, two padding bytes. -/
def sts_header (layer_count frame_count : Nat) : List Nat :=
  0x11 :: stsIdent ++ [layer_count % 256] ++ le16 (frame_count % 65536) ++ [0, 0]

/-- The error cases `save_sts` bails with (`anyhow::bail!` sites of
`src/converter.rs`): too many layers, too many frames, cell value out of
range (the payloads mirror the values interpolated into the messages). -/
inductive StsError where
  | limitLayers (count : Nat)
  | limitFrames (count : Nat)
  | cellOutOfRange (layer frame cell : Nat)
deriving DecidableEq, Repr

/-- Whether an error is one of the two limit checks. -/
def StsError.isLimit : StsError → Bool
  | .limitLayers _ => true
  | .limitFrames _ => true
  | .cellOutOfRange _ _ _ => false

/-- Byte emission for one layer's dense cell row (`src/converter.rs`
lines 69-81, inner loop): each cell is checked against 65535 and written
little-endian.  `frame_idx` is the running frame index (the Rust error
message shows `layer_idx + 1` and `frame_idx`). -/
def cells_bytes (layer_idx : Nat) : Nat → List Nat → Except StsError (List Nat)
  | _, [] => .ok []
  | frame_idx, c :: rest =>
    if c > 65535 then .error (.cellOutOfRange (layer_idx + 1) frame_idx c)
    else
      match cells_bytes layer_idx (frame_idx + 1) rest with
      | .error e => .error e
      | .ok bs => .ok (le16 c ++ bs)

/-- Byte emission for the whole frame grid, layer by layer
(`src/converter.rs` lines 69-81, outer loop). -/
def grid_bytes_go : Nat → List (List Nat) → Except StsError (List Nat)
  | _, [] => .ok []
  | layer_idx, cs :: rest =>
    match cells_bytes layer_idx 0 cs with
    | .error e => .error e
    | .ok bs =>
      match grid_bytes_go (layer_idx + 1) rest with
      | .error e => .error e
      | .ok bs2 => .ok (bs ++ bs2)

/-- One name-table entry (`src/converter.rs` lines 85-104): the Shift-JIS
bytes of the layer name (given by the encoder parameter `enc`), truncated
to 255 bytes when longer, written as a one-byte length prefix followed by
the bytes.  The `had_errors` flag and the truncation only trigger
`eprintln!` warnings in the source, never an error. -/
def name_entry (enc : String → List Nat) (name : String) : List Nat :=
  let name_bytes := enc name
  let name_bytes := if name_bytes.length > 255 then name_bytes.take 255 else name_bytes
  name_bytes.length % 256 :: name_bytes

/-- The name table: one entry per layer, in layer order. -/
def name_table (enc : String → List Nat) (layers : List Layer) : List Nat :=
  (layers.map (fun layer => name_entry enc layer.name)).flatten

/-- `save_sts` of `src/converter.rs` (lines 8-114), with file I/O factored
out: the result is the byte list written to the output file, or the error
the source bails with.  `enc` stands for `SHIFT_JIS.encode` of the
`encoding_rs` crate (the bytes it produces for a name). -/
def save_sts (enc : String → List Nat) (timesheet : Timesheet) :
    Except StsError (List Nat) :=
  let layer_count := timesheet.layers.length
  let frame_count := timesheet.frame_count
  if layer_count > 255 then .error (.limitLayers layer_count)
  else if frame_count > 65535 then .error (.limitFrames frame_count)
  else
    let all_layers_cells := timesheet.layers.map
      (fun layer => expand_frames layer.frames frame_count)
    match grid_bytes_go 0 all_layers_cells with
    | .error e => .error e
    | .ok grid =>
      .ok (sts_header layer_count frame_count ++ grid ++
        name_table enc timesheet.layers)

/-- Scanning tail of `dense_to_keyframes`: `i` is the index of the next
cell, `prev` the value of the previous cell; a keyframe is emitted at
every value change. -/
def dtk_go (i prev : Nat) : List Nat → List Frame
  | [] => []
  | c :: rest =>
    if c ≠ prev then ⟨i, c⟩ :: dtk_go (i + 1) c rest else dtk_go (i + 1) prev rest

/-- Re-derives keyframes from a dense cell array by scanning for value
changes, as the inverse-law claim describes `expand_to_keyframes`: the
first cell always yields a keyframe at index 0, and every later cell that
differs from its predecessor yields one at its index. -/
def dense_to_keyframes : List Nat → List Frame
  | [] => []
  | c :: rest => ⟨0, c⟩ :: dtk_go 1 c rest

/-- Decimal value of a digit run (spec-side helper for the trailing-digit
claim). -/
def digitsVal (ds : List Char) : Nat :=
  ds.foldl (fun a c => a * 10 + (c.toNat - 48)) 0

/-- The dense array of a sorted keyframe list as concatenated constant
segments: each keyframe's cell repeated until the next keyframe's index
(or `frame_count` for the last).  Proof-side normal form of
`expand_frames` on well-formed input. -/
def segs (frame_count : Nat) : List Frame → List Nat
  | [] => []
  | [f] => List.replicate (frame_count - f.frame) f.cell
  | f :: g :: rest => List.replicate (g.frame - f.frame) f.cell ++ segs frame_count (g :: rest)

/-! ### Properties of the compaction pass -/

/-- Whatever it removes, the duplicate-removal scan leaves no element whose
cell equals the cell of the element kept just before it (removed runs are
constant, so comparing against the original predecessor suffices). -/
theorem chain'_cons_dedupAux (p : Frame) (l : List Frame) :
    List.Chain' (fun a b => a.cell ≠ b.cell) (p :: dedupAux p l) := by
  induction l generalizing p with
  | nil => simp [dedupAux]
  | cons f rest ih =>
    by_cases h : f.cell = p.cell
    · rw [dedupAux, if_pos h]
      have hf := ih f
      rw [List.chain'_cons'] at hf ⊢
      refine ⟨fun b hb => ?_, hf.2⟩
      have := hf.1 b hb
      rw [h] at this
      exact this
    · rw [dedupAux, if_neg h]
      rw [List.chain'_cons]
      exact ⟨fun hc => h hc.symm, ih f⟩

/-- On a list with no adjacent equal cells, the duplicate-removal scan
keeps everything. -/
theorem dedupAux_eq_self (p : Frame) (l : List Frame)
    (h : List.Chain' (fun a b => a.cell ≠ b.cell) (p :: l)) : dedupAux p l = l := by
  induction l generalizing p with
  | nil => rfl
  | cons f rest ih =>
    rw [List.chain'_cons] at h
    rw [dedupAux, if_neg (fun hc => h.1 hc.symm), ih f h.2]

/-- Claim C4: compaction postcondition.  For every candidate keyframe list
with strictly increasing frame indices, the compacted result is empty
exactly when the input is empty, a non-empty result starts at frame
index 0, and no two adjacent surviving keyframes share a cell value. -/
theorem optimize_frames_postcondition (L : List Frame)
    (_hsorted : List.Chain' (fun a b => a.frame < b.frame) L) :
    (optimize_frames L = [] ↔ L = []) ∧
    (∀ f, (optimize_frames L).head? = some f → f.frame = 0) ∧
    List.Chain' (fun a b => a.cell ≠ b.cell) (optimize_frames L) := by
  clear _hsorted
  cases L with
  | nil => exact ⟨Iff.rfl, fun f h => by simp [optimize_frames] at h, List.chain'_nil⟩
  | cons f rest =>
    rw [optimize_frames]
    by_cases h : f.frame ≠ 0
    · rw [if_pos h, dedupFrames]
      refine ⟨by simp, fun g hg => ?_, chain'_cons_dedupAux _ _⟩
      rw [List.head?_cons, Option.some.injEq] at hg
      rw [← hg]
    · rw [if_neg h, dedupFrames]
      rw [not_not] at h
      refine ⟨by simp, fun g hg => ?_, chain'_cons_dedupAux _ _⟩
      rw [List.head?_cons, Option.some.injEq] at hg
      rw [← hg]
      exact h

/-- Witness for claim C4 at the concrete input `[(1, 2)]`. -/
theorem optimize_frames_postcondition_witness :
    (optimize_frames [⟨1, 2⟩] = [] ↔ [(⟨1, 2⟩ : Frame)] = []) :=
  (optimize_frames_postcondition [⟨1, 2⟩] (by simp)).1

/-- Compaction is the identity on already-compacted lists (shared helper
for the idempotence and inverse-law claims). -/
theorem optimize_eq_self (L : List Frame)
    (hhead : ∀ f, L.head? = some f → f.frame = 0)
    (hne : List.Chain' (fun a b => a.cell ≠ b.cell) L) :
    optimize_frames L = L := by
  cases L with
  | nil => rfl
  | cons f rest =>
    have hf : f.frame = 0 := hhead f rfl
    rw [optimize_frames, if_neg (fun hc => hc hf), dedupFrames,
      dedupAux_eq_self f rest hne]

/-- Claim C9: compaction idempotence.  A list that is already compacted —
empty, or starting at frame index 0 with no two adjacent keyframes sharing
a cell value — is left unchanged by `optimize_frames`. -/
theorem optimize_frames_idempotent (L : List Frame)
    (hhead : ∀ f, L.head? = some f → f.frame = 0)
    (hne : List.Chain' (fun a b => a.cell ≠ b.cell) L) :
    optimize_frames L = L :=
  optimize_eq_self L hhead hne

/-- Witness for claim C9 at the concrete input `[(0, 1), (1, 2)]`. -/
theorem optimize_frames_idempotent_witness :
    optimize_frames [⟨0, 1⟩, ⟨1, 2⟩] = [⟨0, 1⟩, ⟨1, 2⟩] :=
  optimize_frames_idempotent [⟨0, 1⟩, ⟨1, 2⟩]
    (by
      intro f hf
      rw [List.head?_cons, Option.some.injEq] at hf
      rw [← hf])
    (by simp)

/-! ### Properties of the expansion pass -/

/-- The filling loop never changes the number of cells. -/
theorem fillRange_length (s t v : Nat) (j : Nat) (cells : List Nat) :
    (fillRange s t v j cells).length = cells.length := by
  induction cells generalizing j with
  | nil => rfl
  | cons c rest ih => rw [fillRange]; simp [ih]

/-- Pointwise description of the filling loop started at counter `j0`. -/
theorem fillRange_getElem? (s t v : Nat) (cells : List Nat) (j0 j : Nat) :
    (fillRange s t v j0 cells)[j]? =
      (cells[j]?).map (fun c => if s ≤ j0 + j ∧ j0 + j < t then v else c) := by
  induction cells generalizing j0 j with
  | nil => rfl
  | cons c rest ih =>
    cases j with
    | zero => simp [fillRange]
    | succ j =>
      rw [fillRange]
      simp only [List.getElem?_cons_succ]
      rw [ih (j0 + 1) j]
      have harith : j0 + 1 + j = j0 + (j + 1) := by omega
      rw [harith]

/-- The expansion loop never changes the number of cells. -/
theorem expand_go_length (fc : Nat) (L : List Frame) (cells : List Nat) :
    (expand_go fc L cells).length = cells.length := by
  induction L generalizing cells with
  | nil => rfl
  | cons f rest ih =>
    cases rest with
    | nil => rw [expand_go]; exact fillRange_length _ _ _ _ _
    | cons g rest2 =>
      rw [expand_go, ih (fillRange f.frame g.frame f.cell 0 cells)]
      exact fillRange_length _ _ _ _ _

/-- Claim C10 counterexample: on the (unsorted) keyframe list
`[(5, 1), (2, 7)]` with frame count 6, position 2 — which lies before the
first keyframe's frame index 5 — receives the value 7, not 0. -/
theorem expand_frames_before_first_counterexample :
    expand_frames [⟨5, 1⟩, ⟨2, 7⟩] 6 = [0, 0, 7, 7, 7, 7] ∧
    (expand_frames [⟨5, 1⟩, ⟨2, 7⟩] 6)[2]? = some 7 ∧ 2 < 5 := by
  decide

/-- A position smaller than every keyframe's frame index is never written
by the expansion loop. -/
theorem expand_go_getElem?_untouched (fc : Nat) (L : List Frame) (cells : List Nat)
    (j : Nat) (hj : ∀ f ∈ L, j < f.frame) :
    (expand_go fc L cells)[j]? = cells[j]? := by
  induction L generalizing cells with
  | nil => rfl
  | cons f rest ih =>
    have hf : j < f.frame := hj f (by simp)
    have hrest : ∀ g ∈ rest, j < g.frame := fun g hg => hj g (by simp [hg])
    cases rest with
    | nil =>
      rw [expand_go, fillRange_getElem?]
      rcases h : cells[j]? with _ | c
      · rfl
      · simp only [Option.map_some']
        rw [if_neg (by omega)]
    | cons g rest2 =>
      rw [expand_go, ih _ hrest, fillRange_getElem?]
      rcases h : cells[j]? with _ | c
      · rfl
      · simp only [Option.map_some']
        rw [if_neg (by omega)]

/-- The dense expansion always has exactly `frame_count` cells (shared
helper). -/
theorem expand_frames_length (L : List Frame) (fc : Nat) :
    (expand_frames L fc).length = fc := by
  rw [expand_frames]
  by_cases h : L.isEmpty
  · rw [if_pos h]; exact List.length_replicate _ _
  · rw [if_neg h, expand_go_length]; exact List.length_replicate _ _

/-- Claim C10, amended: for every keyframe list (sorted or not, in range
or not) and every frame count, `expand_frames` is total and returns
exactly `frame_count` cells — writes at or past `frame_count` do not
exist — and every position strictly below all keyframes' frame indices
(before the earliest keyframe) remains 0. -/
theorem expand_frames_safety (L : List Frame) (fc : Nat) :
    (expand_frames L fc).length = fc ∧
    ∀ j, j < fc → (∀ f ∈ L, j < f.frame) → (expand_frames L fc)[j]? = some 0 := by
  constructor
  · exact expand_frames_length L fc
  · intro j hjfc hj
    rw [expand_frames]
    by_cases h : L.isEmpty
    · rw [if_pos h, List.getElem?_replicate, if_pos hjfc]
    · rw [if_neg h, expand_go_getElem?_untouched fc L _ j hj,
        List.getElem?_replicate, if_pos hjfc]

/-- Witness for the amended claim C10 at the concrete input `[(3, 5)]`
with frame count 4: the result has 4 cells and position 1 is 0. -/
theorem expand_frames_safety_witness :
    (expand_frames [⟨3, 5⟩] 4).length = 4 ∧ (expand_frames [⟨3, 5⟩] 4)[1]? = some 0 :=
  ⟨(expand_frames_safety [⟨3, 5⟩] 4).1,
    (expand_frames_safety [⟨3, 5⟩] 4).2 1 (by decide) (by decide)⟩

/-! ### The expansion/compaction inverse law -/

/-- Mapping a value-independent conditional over an option is the identity
when the condition fails. -/
theorem option_map_if_false {v : Nat} {P : Prop} [Decidable P] (hP : ¬P)
    (o : Option Nat) : o.map (fun c => if P then v else c) = o := by
  cases o with
  | none => rfl
  | some c => rw [Option.map_some', if_neg hP]

/-- `take t` of a filling pass over the closed range: the untouched prefix
followed by the written constant block. -/
theorem fillRange_take (s t v : Nat) (cells : List Nat) (hst : s ≤ t)
    (ht : t ≤ cells.length) :
    (fillRange s t v 0 cells).take t = cells.take s ++ List.replicate (t - s) v := by
  apply List.ext_getElem?
  intro j
  have hs : (cells.take s).length = s := by rw [List.length_take]; omega
  rw [List.getElem?_take, List.getElem?_append, hs]
  by_cases h1 : j < s
  · rw [if_pos (by omega), if_pos h1, fillRange_getElem?,
      option_map_if_false (by omega), List.getElem?_take, if_pos h1]
  · by_cases h2 : j < t
    · rw [if_pos h2, if_neg h1, fillRange_getElem?,
        List.getElem?_eq_getElem (by omega), Option.map_some', if_pos (by omega),
        List.getElem?_replicate, if_pos (by omega)]
    · rw [if_neg h2, if_neg h1, List.getElem?_replicate, if_neg (by omega)]

/-- On a sorted keyframe list whose indices all lie below the frame count,
the expansion loop rewrites everything from the first keyframe's index on
with the concatenated constant segments. -/
theorem expand_go_eq_segs (fc : Nat) (rest : List Frame) : ∀ (f : Frame) (cells : List Nat),
    cells.length = fc →
    List.Chain' (fun a b => a.frame < b.frame) (f :: rest) →
    (∀ g ∈ f :: rest, g.frame < fc) →
    expand_go fc (f :: rest) cells = cells.take f.frame ++ segs fc (f :: rest) := by
  induction rest with
  | nil =>
    intro f cells hlen _ hlt
    have hf : f.frame < fc := hlt f (by simp)
    rw [expand_go, segs]
    have htake := fillRange_take f.frame fc f.cell cells (by omega) (by omega)
    rw [List.take_of_length_le (by rw [fillRange_length, hlen])] at htake
    exact htake
  | cons g rest2 ih =>
    intro f cells hlen hchain hlt
    have hfg : f.frame < g.frame := (List.chain'_cons.mp hchain).1
    have hg : g.frame < fc := hlt g (by simp)
    rw [expand_go,
      ih g (fillRange f.frame g.frame f.cell 0 cells)
        (by rw [fillRange_length, hlen]) (List.chain'_cons.mp hchain).2
        (fun x hx => hlt x (by simp [hx])),
      segs, fillRange_take f.frame g.frame f.cell cells (by omega) (by omega),
      List.append_assoc]

/-- `expand_frames` on a compacted, sorted, in-range keyframe list is the
concatenation of its constant segments. -/
theorem expand_frames_eq_segs (f : Frame) (rest : List Frame) (fc : Nat)
    (hf0 : f.frame = 0)
    (hchain : List.Chain' (fun a b => a.frame < b.frame) (f :: rest))
    (hlt : ∀ g ∈ f :: rest, g.frame < fc) :
    expand_frames (f :: rest) fc = segs fc (f :: rest) := by
  rw [expand_frames]
  simp only [List.isEmpty_cons, Bool.false_eq_true, if_false]
  rw [expand_go_eq_segs fc rest f (List.replicate fc 0) (List.length_replicate fc 0)
    hchain hlt, hf0, List.take_zero, List.nil_append]

/-- The change scanner skips over a constant block whose value matches the
previous cell, advancing its index by the block's length. -/
theorem dtk_go_replicate (p : Nat) (k : Nat) : ∀ (i : Nat) (rest : List Nat),
    dtk_go i p (List.replicate k p ++ rest) = dtk_go (i + k) p rest := by
  induction k with
  | zero => intro i rest; rw [List.replicate_zero, List.nil_append, Nat.add_zero]
  | succ k ihk =>
    intro i rest
    rw [List.replicate_succ, List.cons_append, dtk_go, if_neg (by simp), ihk (i + 1) rest]
    have h : i + 1 + k = i + (k + 1) := by omega
    rw [h]

/-- Scanning the segment image of a sorted, duplicate-free keyframe list,
starting at the first keyframe's index with a differing previous value,
recovers the list exactly. -/
theorem dtk_go_segs (fc : Nat) (rest : List Frame) : ∀ (f : Frame) (p : Nat),
    List.Chain' (fun a b => a.frame < b.frame) (f :: rest) →
    (∀ g ∈ f :: rest, g.frame < fc) →
    List.Chain' (fun a b => a.cell ≠ b.cell) (f :: rest) →
    p ≠ f.cell →
    dtk_go f.frame p (segs fc (f :: rest)) = f :: rest := by
  induction rest with
  | nil =>
    intro f p _ hlt _ hp
    have hf : f.frame < fc := hlt f (by simp)
    rw [segs]
    have h1 : fc - f.frame = (fc - f.frame - 1) + 1 := by omega
    rw [h1, List.replicate_succ, dtk_go, if_pos (Ne.symm hp)]
    have h2 := dtk_go_replicate f.cell (fc - f.frame - 1) (f.frame + 1) []
    rw [List.append_nil] at h2
    rw [h2, dtk_go]
  | cons g rest2 ih =>
    intro f p hchain hlt hne hp
    have hfg : f.frame < g.frame := (List.chain'_cons.mp hchain).1
    rw [segs]
    have h1 : g.frame - f.frame = (g.frame - f.frame - 1) + 1 := by omega
    rw [h1, List.replicate_succ, List.cons_append, dtk_go, if_pos (Ne.symm hp),
      dtk_go_replicate f.cell (g.frame - f.frame - 1) (f.frame + 1) (segs fc (g :: rest2))]
    have h2 : f.frame + 1 + (g.frame - f.frame - 1) = g.frame := by omega
    rw [h2, ih g f.cell (List.chain'_cons.mp hchain).2
      (fun x hx => hlt x (by simp [hx])) (List.chain'_cons.mp hne).2
      (List.chain'_cons.mp hne).1]

/-- Scanning the dense expansion of a compacted keyframe list for value
changes recovers the list exactly. -/
theorem dense_to_keyframes_expand (f : Frame) (rest : List Frame) (fc : Nat)
    (hf0 : f.frame = 0)
    (hchain : List.Chain' (fun a b => a.frame < b.frame) (f :: rest))
    (hlt : ∀ g ∈ f :: rest, g.frame < fc)
    (hne : List.Chain' (fun a b => a.cell ≠ b.cell) (f :: rest)) :
    dense_to_keyframes (expand_frames (f :: rest) fc) = f :: rest := by
  rw [expand_frames_eq_segs f rest fc hf0 hchain hlt]
  cases rest with
  | nil =>
    have hf : f.frame < fc := hlt f (by simp)
    rw [segs]
    have h1 : fc - f.frame = (fc - f.frame - 1) + 1 := by omega
    rw [h1, List.replicate_succ, dense_to_keyframes]
    have h2 := dtk_go_replicate f.cell (fc - f.frame - 1) 1 []
    rw [List.append_nil] at h2
    rw [h2, dtk_go, ← hf0]
  | cons g rest2 =>
    have hfg : f.frame < g.frame := (List.chain'_cons.mp hchain).1
    rw [segs]
    have h1 : g.frame - f.frame = (g.frame - f.frame - 1) + 1 := by omega
    rw [h1, List.replicate_succ, List.cons_append, dense_to_keyframes,
      dtk_go_replicate f.cell (g.frame - f.frame - 1) 1 (segs fc (g :: rest2))]
    have h2 : 1 + (g.frame - f.frame - 1) = g.frame := by omega
    rw [h2, dtk_go_segs fc rest2 g f.cell (List.chain'_cons.mp hchain).2
      (fun x hx => hlt x (by simp [hx])) (List.chain'_cons.mp hne).2
      (List.chain'_cons.mp hne).1, ← hf0]

/-- Claim C3: expansion/compaction inverse law.  For every keyframe list
satisfying the compacted invariant — non-empty with first frame index 0,
strictly increasing frame indices, no two adjacent equal cell values — and
every frame count strictly above every frame index (at least the maximum
index plus one), re-deriving keyframes from the dense expansion by
scanning for value changes and compacting the result reproduces the list
exactly. -/
theorem expand_compact_inverse (L : List Frame) (fc : Nat) (h0 : L ≠ [])
    (hhead : ∀ f, L.head? = some f → f.frame = 0)
    (hsort : List.Chain' (fun a b => a.frame < b.frame) L)
    (hne : List.Chain' (fun a b => a.cell ≠ b.cell) L)
    (hfc : ∀ f ∈ L, f.frame < fc) :
    optimize_frames (dense_to_keyframes (expand_frames L fc)) = L := by
  cases L with
  | nil => exact absurd rfl h0
  | cons f rest =>
    rw [dense_to_keyframes_expand f rest fc (hhead f rfl) hsort hfc hne]
    exact optimize_eq_self (f :: rest) hhead hne

/-- Witness for claim C3 at the concrete input `[(0, 1), (2, 3)]` with
frame count 4. -/
theorem expand_compact_inverse_witness :
    optimize_frames (dense_to_keyframes (expand_frames [⟨0, 1⟩, ⟨2, 3⟩] 4)) =
      [⟨0, 1⟩, ⟨2, 3⟩] :=
  expand_compact_inverse [⟨0, 1⟩, ⟨2, 3⟩] 4 (by simp)
    (by
      intro f hf
      rw [List.head?_cons, Option.some.injEq] at hf
      rw [← hf])
    (by simp) (by simp) (by decide)

/-! ### Properties of the binary encoder -/

/-- Every value in the output of the filling loop is either the written
value or one of the original cells. -/
theorem fillRange_mem (s t v : Nat) : ∀ (j : Nat) (cells : List Nat) (x : Nat),
    x ∈ fillRange s t v j cells → x = v ∨ x ∈ cells := by
  intro j cells
  induction cells generalizing j with
  | nil => intro x hx; exact absurd hx (List.not_mem_nil x)
  | cons c rest ih =>
    intro x hx
    rw [fillRange, List.mem_cons] at hx
    rcases hx with hx | hx
    · by_cases hif : s ≤ j ∧ j < t
      · rw [if_pos hif] at hx; exact Or.inl hx
      · rw [if_neg hif] at hx; exact Or.inr (hx ▸ List.mem_cons_self c rest)
    · rcases ih (j + 1) x hx with h | h
      · exact Or.inl h
      · exact Or.inr (List.mem_cons_of_mem c h)

/-- Every value in the output of the expansion loop is an original cell or
some keyframe's cell value. -/
theorem expand_go_mem (fc : Nat) (L : List Frame) : ∀ (cells : List Nat) (x : Nat),
    x ∈ expand_go fc L cells → x ∈ cells ∨ ∃ f ∈ L, x = f.cell := by
  induction L with
  | nil => intro cells x hx; exact Or.inl hx
  | cons f rest ih =>
    cases rest with
    | nil =>
      intro cells x hx
      rw [expand_go] at hx
      rcases fillRange_mem _ _ _ _ _ _ hx with h | h
      · exact Or.inr ⟨f, by simp, h⟩
      · exact Or.inl h
    | cons g rest2 =>
      intro cells x hx
      rw [expand_go] at hx
      rcases ih _ x hx with h | h
      · rcases fillRange_mem _ _ _ _ _ _ h with h2 | h2
        · exact Or.inr ⟨f, by simp, h2⟩
        · exact Or.inl h2
      · rcases h with ⟨ff, hf1, hf2⟩
        exact Or.inr ⟨ff, by simp [hf1], hf2⟩

/-- Every value in a dense expansion is 0 or some keyframe's cell value. -/
theorem expand_frames_mem (L : List Frame) (fc : Nat) (x : Nat)
    (hx : x ∈ expand_frames L fc) : x = 0 ∨ ∃ f ∈ L, x = f.cell := by
  rw [expand_frames] at hx
  by_cases h : L.isEmpty
  · rw [if_pos h] at hx
    exact Or.inl (List.eq_of_mem_replicate hx)
  · rw [if_neg h] at hx
    rcases expand_go_mem fc L _ x hx with h2 | h2
    · exact Or.inl (List.eq_of_mem_replicate h2)
    · exact Or.inr h2

/-- Cell-row emission succeeds on in-range cells and produces the
per-cell little-endian bytes in order. -/
theorem cells_bytes_ok (li : Nat) (cs : List Nat) (h : ∀ c ∈ cs, c ≤ 65535) :
    ∀ fi, cells_bytes li fi cs = .ok (cs.map le16).flatten := by
  induction cs with
  | nil => intro fi; rfl
  | cons c rest ih =>
    intro fi
    rw [cells_bytes, if_neg (by have := h c (by simp); omega),
      ih (fun x hx => h x (by simp [hx])) (fi + 1), List.map_cons, List.flatten_cons]

/-- Grid emission succeeds on in-range cells and produces the per-layer
concatenation of each row's bytes. -/
theorem grid_bytes_go_ok (css : List (List Nat)) (h : ∀ cs ∈ css, ∀ c ∈ cs, c ≤ 65535) :
    ∀ li, grid_bytes_go li css = .ok (css.map (fun cs => (cs.map le16).flatten)).flatten := by
  induction css with
  | nil => intro li; rfl
  | cons cs rest ih =>
    intro li
    rw [grid_bytes_go, cells_bytes_ok li cs (h cs (by simp)) 0,
      ih (fun x hx => h x (by simp [hx])) (li + 1), List.map_cons, List.flatten_cons]

/-- A successful cell-row emission always has the per-cell byte shape. -/
theorem cells_bytes_ok_shape (li : Nat) (cs : List Nat) : ∀ (fi : Nat) (bs : List Nat),
    cells_bytes li fi cs = .ok bs → bs = (cs.map le16).flatten := by
  induction cs with
  | nil =>
    intro fi bs h
    rw [cells_bytes, Except.ok.injEq] at h
    rw [← h, List.map_nil, List.flatten_nil]
  | cons c rest ih =>
    intro fi bs h
    rw [cells_bytes] at h
    split at h
    · exact absurd h (by simp)
    · split at h
      · exact absurd h (by simp)
      · rename_i bs2 heq
        rw [Except.ok.injEq] at h
        rw [← h, ih (fi + 1) bs2 heq, List.map_cons, List.flatten_cons]

/-- A successful grid emission always has the layer-major byte shape. -/
theorem grid_bytes_go_ok_shape (css : List (List Nat)) : ∀ (li : Nat) (bs : List Nat),
    grid_bytes_go li css = .ok bs →
    bs = (css.map (fun cs => (cs.map le16).flatten)).flatten := by
  induction css with
  | nil =>
    intro li bs h
    rw [grid_bytes_go, Except.ok.injEq] at h
    rw [← h, List.map_nil, List.flatten_nil]
  | cons cs rest ih =>
    intro li bs h
    rw [grid_bytes_go] at h
    cases hcb : cells_bytes li 0 cs with
    | error e => rw [hcb] at h; exact absurd h (by simp)
    | ok bs1 =>
      rw [hcb] at h
      cases hgb : grid_bytes_go (li + 1) rest with
      | error e => rw [hgb] at h; exact absurd h (by simp)
      | ok bs2 =>
        rw [hgb, Except.ok.injEq] at h
        rw [← h, cells_bytes_ok_shape li cs 0 bs1 hcb, ih (li + 1) bs2 hgb,
          List.map_cons, List.flatten_cons]

/-- Two little-endian bytes per cell. -/
theorem le16_flatten_length (cs : List Nat) : ((cs.map le16).flatten).length = cs.length * 2 := by
  induction cs with
  | nil => rfl
  | cons c rest ih =>
    rw [List.map_cons, List.flatten_cons, List.length_append, ih, le16,
      List.length_cons, List.length_cons, List.length_nil, List.length_cons]
    ring

/-- Total size of the frame grid: layer count times frame count times two
bytes. -/
theorem grid_length (layers : List Layer) (fc : Nat) :
    ((layers.map (fun layer => ((expand_frames layer.frames fc).map le16).flatten)).flatten).length
      = layers.length * fc * 2 := by
  induction layers with
  | nil => simp
  | cons l rest ih =>
    rw [List.map_cons, List.flatten_cons, List.length_append, ih,
      le16_flatten_length, expand_frames_length l.frames fc, List.length_cons]
    ring

/-- Claim C5: bounds enforcement.  Encoding a `Timesheet` with 256 layers
fails with the layer-limit error; encoding one with frame count 65536
fails with a limit error; encoding one with 255 layers and frame count
65535, whose cell values fit 16 bits, passes both limit checks and
succeeds. -/
theorem save_sts_bounds (enc : String → List Nat) (ts1 ts2 ts3 : Timesheet)
    (h1 : ts1.layers.length = 256)
    (h2 : ts2.frame_count = 65536)
    (h3 : ts3.layers.length = 255) (h4 : ts3.frame_count = 65535)
    (h5 : ∀ l ∈ ts3.layers, ∀ f ∈ l.frames, f.cell ≤ 65535) :
    save_sts enc ts1 = .error (.limitLayers 256) ∧
    (∃ e, save_sts enc ts2 = .error e ∧ e.isLimit = true) ∧
    (save_sts enc ts3).isOk = true := by
  refine ⟨?_, ?_, ?_⟩
  · simp only [save_sts]
    rw [h1, if_pos (by omega)]
  · by_cases hl : ts2.layers.length > 255
    · exact ⟨.limitLayers ts2.layers.length,
        by simp only [save_sts]; rw [if_pos hl], rfl⟩
    · refine ⟨.limitFrames ts2.frame_count,
        by simp only [save_sts]; rw [if_neg hl, if_pos (by omega)], rfl⟩
  · simp only [save_sts]
    rw [if_neg (by omega), if_neg (by omega)]
    have hcells : ∀ cs ∈ ts3.layers.map
        (fun layer => expand_frames layer.frames ts3.frame_count),
        ∀ c ∈ cs, c ≤ 65535 := by
      intro cs hcs c hc
      rw [List.mem_map] at hcs
      rcases hcs with ⟨layer, hlm, rfl⟩
      rcases expand_frames_mem _ _ _ hc with h | ⟨f, hf, rfl⟩
      · omega
      · exact h5 layer hlm f hf
    rw [grid_bytes_go_ok _ hcells 0]
    rfl

/-- 256 empty layers: over the layer limit. -/
def tsOverLayers : Timesheet := ⟨"a", 0, List.replicate 256 ⟨"l", []⟩⟩

/-- Frame count 65536: over the frame limit. -/
def tsOverFrames : Timesheet := ⟨"b", 65536, []⟩

/-- 255 empty layers at frame count 65535: exactly at both limits. -/
def tsAtLimits : Timesheet := ⟨"c", 65535, List.replicate 255 ⟨"l", []⟩⟩

/-- Witness for claim C5 at the concrete timesheets `tsOverLayers` and
`tsAtLimits`. -/
theorem save_sts_bounds_witness :
    save_sts (fun _ => []) tsOverLayers = .error (.limitLayers 256) ∧
    (save_sts (fun _ => []) tsAtLimits).isOk = true :=
  ⟨(save_sts_bounds (fun _ => []) tsOverLayers tsOverFrames tsAtLimits
      (by simp only [tsOverLayers, List.length_replicate]) rfl
      (by simp only [tsAtLimits, List.length_replicate]) rfl
      (by
        intro l hl f hf
        simp only [tsAtLimits] at hl
        rw [List.eq_of_mem_replicate hl] at hf
        exact absurd hf (List.not_mem_nil f))).1,
   (save_sts_bounds (fun _ => []) tsOverLayers tsOverFrames tsAtLimits
      (by simp only [tsOverLayers, List.length_replicate]) rfl
      (by simp only [tsAtLimits, List.length_replicate]) rfl
      (by
        intro l hl f hf
        simp only [tsAtLimits] at hl
        rw [List.eq_of_mem_replicate hl] at hf
        exact absurd hf (List.not_mem_nil f))).2.2⟩

/-- Claim C7: byte-exact output layout.  Every successfully encoded
timesheet yields the 23-byte header — tag 0x11, the 17-byte ASCII
identifier, the layer-count byte, the little-endian frame count, two zero
bytes — followed by the layer-major little-endian frame grid of exactly
`layer_count * frame_count * 2` bytes, followed by the per-layer name
table. -/
theorem sts_layout (enc : String → List Nat) (ts : Timesheet) (out : List Nat)
    (h : save_sts enc ts = .ok out) :
    out = 0x11 :: stsIdent ++ [ts.layers.length] ++
        [ts.frame_count % 256, ts.frame_count / 256 % 256] ++ [0, 0] ++
        (ts.layers.map
          (fun layer => ((expand_frames layer.frames ts.frame_count).map le16).flatten)).flatten ++
        name_table enc ts.layers ∧
    stsIdent.length = 17 ∧ (∀ b ∈ stsIdent, b < 128) ∧
    ((ts.layers.map
        (fun layer => ((expand_frames layer.frames ts.frame_count).map le16).flatten)).flatten).length
      = ts.layers.length * ts.frame_count * 2 := by
  simp only [save_sts] at h
  by_cases hl : ts.layers.length > 255
  · rw [if_pos hl] at h; exact absurd h (by simp)
  · rw [if_neg hl] at h
    by_cases hf : ts.frame_count > 65535
    · rw [if_pos hf] at h; exact absurd h (by simp)
    · rw [if_neg hf] at h
      cases hgb : grid_bytes_go 0 (ts.layers.map
          (fun layer => expand_frames layer.frames ts.frame_count)) with
      | error e => rw [hgb] at h; exact absurd h (by simp)
      | ok grid =>
        rw [hgb, Except.ok.injEq] at h
        have hshape := grid_bytes_go_ok_shape _ 0 grid hgb
        rw [List.map_map] at hshape
        refine ⟨?_, rfl, by decide, grid_length ts.layers ts.frame_count⟩
        rw [← h, hshape, sts_header, le16,
          Nat.mod_eq_of_lt (by omega : ts.layers.length < 256),
          Nat.mod_eq_of_lt (by omega : ts.frame_count < 65536)]
        simp only [List.cons_append, List.append_assoc]
        rfl

/-- One layer, one frame: a minimal successfully encoded timesheet. -/
def tsTiny : Timesheet := ⟨"t", 1, [⟨"A", [⟨0, 2⟩]⟩]⟩

/-- Witness for claim C7 at the concrete timesheet `tsTiny` with a
one-byte name encoder. -/
theorem sts_layout_witness :
    tsTiny.layers.length ≤ 255 ∧
    ((tsTiny.layers.map
        (fun layer => ((expand_frames layer.frames tsTiny.frame_count).map le16).flatten)).flatten).length
      = tsTiny.layers.length * tsTiny.frame_count * 2 :=
  ⟨by decide,
    (sts_layout (fun _ => [65]) tsTiny
      (sts_header 1 1 ++ [2, 0] ++ [1, 65]) (by rfl)).2.2.2⟩

/-- Claim C8: layer-name encoding never aborts the conversion.  An
encoded name longer than 255 bytes is truncated to exactly 255 bytes and
written after a one-byte length prefix; every name entry is a length
prefix followed by that many (at most 255) bytes, either the encoded
bytes or their 255-byte truncation; and success of `save_sts` does not
depend on the name encoder at all. -/
theorem name_encoding_total (enc enc2 : String → List Nat) (name : String)
    (ts : Timesheet) (hlong : (enc name).length > 255) :
    name_entry enc name = 255 :: (enc name).take 255 ∧
    (∀ nm, ∃ bytes, name_entry enc nm = bytes.length :: bytes ∧ bytes.length ≤ 255 ∧
      (bytes = enc nm ∨ bytes = (enc nm).take 255)) ∧
    (save_sts enc ts).isOk = (save_sts enc2 ts).isOk := by
  refine ⟨?_, ?_, ?_⟩
  · simp only [name_entry]
    rw [if_pos hlong, List.length_take,
      Nat.min_def, if_pos (by omega), Nat.mod_eq_of_lt (by omega)]
  · intro nm
    simp only [name_entry]
    by_cases h : (enc nm).length > 255
    · refine ⟨(enc nm).take 255, ?_, ?_, Or.inr rfl⟩
      · rw [if_pos h, List.length_take, Nat.min_def, if_pos (by omega),
          Nat.mod_eq_of_lt (by omega)]
      · rw [List.length_take]; omega
    · refine ⟨enc nm, ?_, by omega, Or.inl rfl⟩
      rw [if_neg h, Nat.mod_eq_of_lt (by omega)]
  · simp only [save_sts]
    by_cases h1 : ts.layers.length > 255
    · rw [if_pos h1, if_pos h1]
    · rw [if_neg h1, if_neg h1]
      by_cases h2 : ts.frame_count > 65535
      · rw [if_pos h2, if_pos h2]
      · rw [if_neg h2, if_neg h2]
        cases hgb : grid_bytes_go 0 (ts.layers.map
            (fun layer => expand_frames layer.frames ts.frame_count)) with
        | error e => rfl
        | ok grid => rfl

/-- A name encoder producing 256 bytes for every name, to exercise the
truncation path. -/
def encLong : String → List Nat := fun _ => List.replicate 256 7

/-- Witness for claim C8: the 256-byte encoding of a name is truncated to
exactly 255 bytes behind a length prefix of 255. -/
theorem name_encoding_total_witness :
    name_entry encLong "a" = 255 :: (encLong "a").take 255 :=
  (name_encoding_total encLong (fun _ => []) "a" ⟨"t", 0, []⟩
    (by
      show (List.replicate 256 7).length > 255
      rw [List.length_replicate]
      omega)).1

/-! ### Dialect B loading -/

/-- The Dialect B time table of the end-to-end scenario: duration 5, one
field-4 track with raw frame/value pairs (0, "0"), (2, "3"), (4, "3"),
and a matching header naming track 0 "A". -/
def tdtsExampleTable : TimeTable :=
  ⟨"t", 5, [⟨4, [⟨0, [⟨0, [⟨["0"]⟩]⟩, ⟨2, [⟨["3"]⟩]⟩, ⟨4, [⟨["3"]⟩]⟩]⟩]⟩], [⟨4, ["A"]⟩]⟩

/-- Claim C1: end-to-end scenario.  The Dialect B table with duration 5
and raw pairs (0,"0"), (2,"3"), (4,"3") normalizes to the compacted
keyframes [(0,0), (2,3)]; expansion at frame count 5 yields the dense
array [0,0,3,3,3]; and encoding produces the header with layer count 1
and frame count 5 followed by the 10 grid bytes
00 00 00 00 03 00 03 00 03 00 and the name table. -/
theorem tdts_end_to_end (enc : String → List Nat) :
    (parse_tdts_timetable "x" tdtsExampleTable).layers.map Layer.frames
      = [[⟨0, 0⟩, ⟨2, 3⟩]] ∧
    (parse_tdts_timetable "x" tdtsExampleTable).frame_count = 5 ∧
    expand_frames [⟨0, 0⟩, ⟨2, 3⟩] 5 = [0, 0, 3, 3, 3] ∧
    save_sts enc (parse_tdts_timetable "x" tdtsExampleTable) =
      .ok (sts_header 1 5 ++ [0, 0, 0, 0, 3, 0, 3, 0, 3, 0] ++ name_entry enc "A") ∧
    sts_header 1 5 = 0x11 :: stsIdent ++ [1] ++ [5, 0] ++ [0, 0] := by
  have hts : parse_tdts_timetable "x" tdtsExampleTable
      = ⟨"x", 5, [⟨"A", [⟨0, 0⟩, ⟨2, 3⟩]⟩]⟩ := by decide
  refine ⟨by rw [hts]; rfl, by rw [hts], by decide, ?_, by decide⟩
  rw [hts]
  simp only [save_sts]
  rw [if_neg (by decide), if_neg (by decide)]
  have hg : grid_bytes_go 0 ([(⟨"A", [⟨0, 0⟩, ⟨2, 3⟩]⟩ : Layer)].map
      (fun layer => expand_frames layer.frames 5)) =
      .ok [0, 0, 0, 0, 3, 0, 3, 0, 3, 0] := rfl
  rw [hg]
  have hnames : name_table enc [(⟨"A", [⟨0, 0⟩, ⟨2, 3⟩]⟩ : Layer)] = name_entry enc "A" := by
    simp [name_table]
  show Except.ok (sts_header 1 5 ++ [0, 0, 0, 0, 3, 0, 3, 0, 3, 0] ++
      name_table enc [(⟨"A", [⟨0, 0⟩, ⟨2, 3⟩]⟩ : Layer)]) =
    Except.ok (sts_header 1 5 ++ [0, 0, 0, 0, 3, 0, 3, 0, 3, 0] ++ name_entry enc "A")
  rw [hnames]

/-- A Dialect B time table with a single field whose identifier is 3, not
4 (and no tracks): claim C2 says loading must skip it. -/
def tdtsTableNoField4 : TimeTable := ⟨"t", 3, [⟨3, []⟩], []⟩

/-- A root holding one sheet with just that table. -/
def tdtsNoField4Root : TDTSRoot := ⟨[⟨⟨"c"⟩, [tdtsTableNoField4]⟩]⟩

/-- Claim C2 counterexample: the table's only field has identifier 3
(field 4 is absent) and its fields list is non-empty, yet loading the root
produces one `Timesheet` rather than none. -/
theorem tdts_skip_counterexample :
    tdtsTableNoField4.fields.all (fun f => f.field_id != 4) = true ∧
    tdtsTableNoField4.fields.isEmpty = false ∧
    (load_tdts_root "f" tdtsNoField4Root).length = 1 := by
  decide

/-- Claim C2, amended: a Dialect B time table is skipped (produces no
`Timesheet`) exactly when its `fields` list is empty — loading yields one
`Timesheet` per time table with a non-empty `fields` list; a table whose
field-4 entry is absent still produces a `Timesheet`, but with zero
layers. -/
theorem tdts_skip_amended (filename : String) (root : TDTSRoot) :
    (load_tdts_root filename root).length =
      ((root.time_sheets.map (fun s => (s.time_tables.filter
        (fun tt => !tt.fields.isEmpty)).length)).sum) ∧
    (∀ name tt, tt.fields.all (fun f => f.field_id != 4) = true →
      (parse_tdts_timetable name tt).layers = []) := by
  constructor
  · rw [load_tdts_root, List.length_flatMap]
    congr 1
    apply List.map_congr_left
    intro s _
    simp only [Function.comp]
    induction s.time_tables with
    | nil => rfl
    | cons tt rest ih =>
      by_cases h : tt.fields.isEmpty
      · simp only [List.filterMap_cons, List.filter_cons, h, if_pos, Bool.not_true,
          if_true]
        rw [ih]
        simp
      · simp only [List.filterMap_cons, List.filter_cons, h, Bool.not_false]
        rw [if_neg (by simp [h]), if_pos (by simp [h])]
        simp only [List.length_cons]
        rw [ih]
  · intro name tt hall
    have hfind : tt.fields.find? (fun f => f.field_id = 4) = none := by
      rw [List.find?_eq_none]
      intro x hx
      have hx4 := List.all_eq_true.mp hall x hx
      simp only [bne_iff_ne, ne_eq] at hx4
      simp [hx4]
    simp only [parse_tdts_timetable, hfind]

/-- Witness for the amended claim C2 at the concrete no-field-4 root: one
timesheet is produced and it has zero layers. -/
theorem tdts_skip_amended_witness :
    (load_tdts_root "f" tdtsNoField4Root).length =
      ((tdtsNoField4Root.time_sheets.map (fun s => (s.time_tables.filter
        (fun tt => !tt.fields.isEmpty)).length)).sum) ∧
    (parse_tdts_timetable "n" tdtsTableNoField4).layers = [] :=
  ⟨(tdts_skip_amended "f" tdtsNoField4Root).1,
   (tdts_skip_amended "f" tdtsNoField4Root).2 "n" tdtsTableNoField4 (by decide)⟩

/-! ### Dialect A cell-token mapping -/

/-- `takeWhile` keeps a list all of whose elements satisfy the predicate. -/
theorem takeWhile_all_digits (l : List Char) (h : ∀ c ∈ l, c.isDigit = true) :
    l.takeWhile Char.isDigit = l := by
  induction l with
  | nil => rfl
  | cons c rest ih =>
    rw [List.takeWhile_cons, h c (by simp), if_pos rfl,
      ih (fun x hx => h x (by simp [hx]))]

/-- The reverse-takeWhile-reverse computation of the source extracts
exactly the trailing digit run: if the character list splits as a prefix
ending in a non-digit (or empty) followed by a run of digits, that run is
what `trailingDigits` returns. -/
theorem trailingDigits_eq (value : String) (p ds : List Char)
    (hsplit : value.toList = p ++ ds)
    (hds : ∀ c ∈ ds, c.isDigit = true)
    (hmax : ∀ c, p.getLast? = some c → c.isDigit = false) :
    trailingDigits value = ds := by
  have hall : ds.reverse.takeWhile Char.isDigit = ds.reverse :=
    takeWhile_all_digits _ (fun c hc => hds c (List.mem_reverse.mp hc))
  have hnone : p.reverse.takeWhile Char.isDigit = [] := by
    rcases hrev : p.reverse with _ | ⟨c, pr⟩
    · rfl
    · have hc : p.getLast? = some c := by
        rw [← List.head?_reverse, hrev, List.head?_cons]
      rw [List.takeWhile_cons, hmax c hc]
      simp
  rw [trailingDigits, hsplit, List.reverse_append, List.takeWhile_append,
    if_pos (by rw [hall]), hnone, List.append_nil, List.reverse_reverse]

/-- On a non-empty all-digit character run whose decimal value fits 16
bits, the `u16` parser returns that value. -/
theorem parse_u16_chars_digits (ds : List Char) (hne : ds ≠ [])
    (hds : ∀ c ∈ ds, c.isDigit = true) (hval : digitsVal ds ≤ 65535) :
    parse_u16_chars ds = some (digitsVal ds) := by
  have hhead : ¬ ds.head? = some '+' := by
    rcases ds with _ | ⟨d, rest⟩
    · simp
    · rw [List.head?_cons]
      intro hcon
      rw [Option.some.injEq] at hcon
      have hd := hds d (by simp)
      rw [hcon] at hd
      exact absurd hd (by decide)
  simp only [parse_u16_chars]
  rw [if_neg hhead, if_neg (by simp [List.isEmpty_iff, hne]),
    if_pos (List.all_eq_true.mpr hds)]
  rw [show List.foldl (fun a c => a * 10 + (c.toNat - 48)) 0 ds = digitsVal ds from rfl,
    if_pos hval]

/-- Claim C6: Dialect A cell-token mapping.  "SYMBOL_NULL_CELL" yields
cell 0; the tick and hyphen tokens yield no keyframe; "CEL_7" yields 7;
and for every other token, splitting its characters as a prefix not
ending in a digit followed by its run of trailing decimal digits, an
empty run yields no keyframe and a non-empty run whose decimal value fits
16 bits yields that value. -/
theorem xdts_cell_token_mapping :
    parse_xdts_cell_value "SYMBOL_NULL_CELL" = some 0 ∧
    parse_xdts_cell_value "SYMBOL_TICK_1" = none ∧
    parse_xdts_cell_value "SYMBOL_TICK_2" = none ∧
    parse_xdts_cell_value "SYMBOL_HYPHEN" = none ∧
    parse_xdts_cell_value "CEL_7" = some 7 ∧
    (∀ (value : String) (p ds : List Char),
      value ≠ "SYMBOL_NULL_CELL" → value ≠ "SYMBOL_TICK_1" →
      value ≠ "SYMBOL_TICK_2" → value ≠ "SYMBOL_HYPHEN" →
      value.toList = p ++ ds →
      (∀ c ∈ ds, c.isDigit = true) →
      (∀ c, p.getLast? = some c → c.isDigit = false) →
      ((ds = [] → parse_xdts_cell_value value = none) ∧
       (ds ≠ [] → digitsVal ds ≤ 65535 →
         parse_xdts_cell_value value = some (digitsVal ds)))) := by
  refine ⟨by decide, by decide, by decide, by decide, by decide, ?_⟩
  intro value p ds h1 h2 h3 h4 hsplit hds hmax
  have htd : trailingDigits value = ds := trailingDigits_eq value p ds hsplit hds hmax
  constructor
  · intro hnil
    rw [parse_xdts_cell_value, if_neg h1,
      if_neg (by push_neg; exact ⟨h2, h3, h4⟩)]
    rw [htd, hnil]
    simp
  · intro hne hval
    rw [parse_xdts_cell_value, if_neg h1,
      if_neg (by push_neg; exact ⟨h2, h3, h4⟩)]
    rw [htd, if_pos (by simp [List.isEmpty_iff, hne]),
      parse_u16_chars_digits ds hne hds hval]

/-- Witness for claim C6 at the concrete token "CEL_12". -/
theorem xdts_cell_token_mapping_witness :
    parse_xdts_cell_value "CEL_12" = some (digitsVal ['1', '2']) :=
  (xdts_cell_token_mapping.2.2.2.2.2 "CEL_12" ['C', 'E', 'L', '_'] ['1', '2']
    (by decide) (by decide) (by decide) (by decide) (by decide) (by decide)
    (by decide)).2 (by decide) (by decide)

end XdtsToSts
